import Mathlib

/-
Verification of the fluminurs resource-synchronisation engine.

This file is a shallow embedding, in Lean 4, of the parts of the fluminurs
source (src/lib.rs, src/resource.rs, src/conferencing.rs, src/streamer.rs)
that its specification talks about, together with theorems settling the
spec's claims against that embedding.

Modelling conventions:
 - paths are plain file names inside one directory (the engine only ever
   edits file names; `Path` comparison on such names is byte order, which
   for UTF-8 agrees with the `List Char` order used here);
 - the file system is an association list from path to file data;
 - timestamps (`SystemTime`) are naturals; byte contents are `List Nat`;
 - `&'static str` errors are `String`s with the source's exact text;
 - effects of the outside world (network, chrono, transient fs failures)
   are oracle fields threaded through environments;
 - unbounded `loop`s are driven by a finite list of oracle outcomes (or
   fuel); exhausting it yields `none`, the model of divergence;
 - `sort_unstable_by` is modelled by `List.insertionSort` with the same
   comparator; the two agree whenever no two list elements tie under the
   comparator, which the relevant theorems assume (or their inputs satisfy).
-/

deriving instance DecidableEq for Except

namespace Fluminurs

/-- File data: the byte contents and the modification time (resource.rs
works with bytes written to files and `SystemTime` mtimes). -/
structure FileData where
  bytes : List Nat
  mtime : Nat
deriving DecidableEq, Repr

/-- File system: an association list from path to file data. -/
abbrev Fs := List (String × FileData)

/-- Look a path up in the file system. -/
def fsGet : Fs → String → Option FileData
  | [], _ => none
  | (q, d) :: rest, p => if q = p then some d else fsGet rest p

/-- Remove a path from the file system (no-op when absent). -/
def fsRemove (fs : Fs) (p : String) : Fs :=
  fs.filter (fun e => e.1 ≠ p)

/-- Create or overwrite a file. -/
def fsSet (fs : Fs) (p : String) (d : FileData) : Fs :=
  (p, d) :: fsRemove fs p

/-- Set the mtime of a file, when present (filetime::set_file_mtime). -/
def fsSetMtime (fs : Fs) (p : String) (t : Nat) : Fs :=
  fs.map (fun e => if e.1 = p then (e.1, FileData.mk e.2.bytes t) else e)

/-- Overwrite modes (resource.rs `OverwriteMode`). -/
inductive OverwriteMode
  | skip
  | overwrite
  | rename
deriving DecidableEq, Repr

/-- Download results (resource.rs `OverwriteResult`). -/
inductive OverwriteResult
  | newFile
  | alreadyHave
  | skipped
  | overwritten
  | renamed (renamedPath : String)
deriving DecidableEq, Repr

/-- Error type: the source's `type Error = &'static str`. -/
abbrev Error := String

/-- Retryable errors (resource.rs `RetryableError`). -/
inductive RetryableError
  | retry (e : Error)
  | fail (e : Error)
deriving DecidableEq, Repr

/-- Split a file name at its FIRST dot, the helper of
`split_file_name_into_step_and_extension_properly` (resource.rs:311):
`bytes.iter().position(|b| b == b'.')` and slicing around it.
Returns `none` when the name holds no dot. -/
def splitAtFirstDot : List Char → Option (List Char × List Char)
  | [] => none
  | c :: cs =>
    if c = '.' then some ([], cs)
    else
      match splitAtFirstDot cs with
      | some (st, ex) => some (c :: st, ex)
      | none => none

/-- The proper splitter of resource.rs:311-349 applied to an optional file
name: stem before the first dot, extension after it. -/
def splitFileNameProperly (fileName : Option String) :
    Option String × Option String :=
  match fileName with
  | none => (none, none)
  | some n =>
    match splitAtFirstDot n.toList with
    | none => (some n, none)
    | some (st, ex) => (some (String.mk st), some (String.mk ex))

/-- Split a file name at its LAST dot (helper for Rust std's
`Path::file_stem` / `Path::extension` semantics). -/
def splitAtLastDot (cs : List Char) : Option (List Char × List Char) :=
  match splitAtFirstDot cs.reverse with
  | some (exRev, stRev) => some (stRev.reverse, exRev.reverse)
  | none => none

/-- Rust std `Path::file_stem` on a plain file name: the part before the
last dot, the whole name when there is no dot or the only dot leads. -/
def rustFileStem (n : String) : Option String :=
  if n = "" then none
  else
    match splitAtLastDot n.toList with
    | none => some n
    | some (st, _) => if st = [] then some n else some (String.mk st)

/-- Rust std `Path::extension` on a plain file name: the part after the
last dot, absent when there is no dot or the only dot leads. -/
def rustExtension (n : String) : Option String :=
  if n = "" then none
  else
    match splitAtLastDot n.toList with
    | none => none
    | some (st, ex) => if st = [] then none else some (String.mk ex)

/-- Rust std `Path::with_extension` on a plain file name: drop the current
extension and append the new one (nothing appended for the empty one). -/
def withExtension (n e : String) : String :=
  let base :=
    match rustExtension n with
    | some _ => (rustFileStem n).getD n
    | none => n
  if e = "" then base else base ++ "." ++ e

/-- Transient failures `tokio::fs::metadata` can report for an existing
file (resource.rs:209-216 distinguishes these two kinds). -/
inductive MdFailure
  | permissionDenied
  | other
deriving DecidableEq, Repr

/-- Oracles for `prepare_path` (resource.rs:203-263): injected metadata
failure, whether `metadata.modified()` is unsupported, chrono's rendering
of an mtime's local date as `YYYY-MM-DD`, and whether the autorename's
`tokio::fs::rename` succeeds. -/
structure PrepEnv where
  mdFailure : Option MdFailure
  mtimeUnsupported : Bool
  dateStr : Nat → String
  renameOk : Bool

/-- Candidate renamed file name for autorename attempt `i`
(resource.rs:240-255): the suffixed stem, with the extension re-attached
by `with_extension` (which appends nothing for the empty extension). -/
def renameCandidate (newStem : String) (ext : Option String) (i : Nat) : String :=
  let stem := if i = 0 then newStem else newStem ++ "_" ++ toString i
  match ext with
  | some e => if e = "" then stem else stem ++ "." ++ e
  | none => stem

/-- The autorename loop of resource.rs:242-255: try candidates until one
does not exist. Driven by fuel; `none` models divergence (with fuel
`fs.length + 1` a free candidate always exists, so it never fires). -/
def findFreeName (fs : Fs) (newStem : String) (ext : Option String) :
    Nat → Nat → Option String
  | 0, _ => none
  | fuel + 1, i =>
    let cand := renameCandidate newStem ext i
    if (fsGet fs cand).isNone then some cand
    else findFreeName fs newStem ext fuel (i + 1)

/-- The embedding of `prepare_path` (resource.rs:203-263). Returns
whether to download, the `OverwriteResult`, and the file system after the
possible autorename; `none` models the `expect` panic on a missing file
name and autorename-loop divergence. -/
def preparePath (env : PrepEnv) (fs : Fs) (path : String)
    (mode : OverwriteMode) (lastUpdated : Nat) :
    Option (Except Error (Bool × OverwriteResult × Fs)) :=
  match env.mdFailure with
  | some MdFailure.permissionDenied =>
    some (Except.error "Permission denied when retrieving file metadata")
  | some MdFailure.other =>
    some (Except.error "Unable to retrieve file metadata")
  | none =>
    match fsGet fs path with
    | none => some (Except.ok (true, OverwriteResult.newFile, fs))
    | some fd =>
      if env.mtimeUnsupported then
        some (Except.error "File system does not support last modified time")
      else if lastUpdated ≤ fd.mtime then
        some (Except.ok (false, OverwriteResult.alreadyHave, fs))
      else
        match mode with
        | OverwriteMode.skip =>
          some (Except.ok (false, OverwriteResult.skipped, fs))
        | OverwriteMode.overwrite =>
          some (Except.ok (true, OverwriteResult.overwritten, fs))
        | OverwriteMode.rename =>
          match splitFileNameProperly (if path = "" then none else some path) with
          | (none, _) => none
          | (some stem, ext) =>
            match findFreeName fs (stem ++ "_autorename_" ++ env.dateStr fd.mtime)
                ext (fs.length + 1) 0 with
            | none => none
            | some renamedPath =>
              if env.renameOk then
                some (Except.ok (true, OverwriteResult.renamed renamedPath,
                  fsSet (fsRemove fs path) renamedPath fd))
              else some (Except.error "Failed renaming existing file")

/-- One attempted run of `download_chunks` (resource.rs:174-201), as its
observable outcome: temp-file creation failure, send failure, a partial
stream ended by a chunk error, a disk write failure, or full success. -/
inductive Attempt
  | createFail
  | sendFail
  | streamRetry (written : List Nat)
  | writeFail (written : List Nat)
  | success (bytes : List Nat)
deriving DecidableEq, Repr

/-- Effect of one `download_chunks` run on the file system, with its
`RetryableResult` (resource.rs:174-201): `File::create` truncates the temp
file, streamed chunks are appended there, transport errors are `Retry`,
file system errors are `Fail`. -/
def runDownloadChunks (now : Nat) (fs : Fs) (temp : String) :
    Attempt → Except RetryableError Unit × Fs
  | Attempt.createFail =>
    (Except.error (RetryableError.fail "Unable to open temporary file"), fs)
  | Attempt.sendFail =>
    (Except.error (RetryableError.retry "Failed during download"),
      fsSet fs temp (FileData.mk [] now))
  | Attempt.streamRetry written =>
    (Except.error (RetryableError.retry "Failed during streaming"),
      fsSet fs temp (FileData.mk written now))
  | Attempt.writeFail written =>
    (Except.error (RetryableError.fail "Failed writing to disk"),
      fsSet fs temp (FileData.mk written now))
  | Attempt.success bytes =>
    (Except.ok (), fsSet fs temp (FileData.mk bytes now))

/-- The loop of `infinite_retry_download` (resource.rs:265-303), driven by
the list of attempt outcomes paired with whether the post-failure
`remove_file(temp)` succeeds: on `Ok` rename temp to dest and stop, on
`Retry` delete temp and loop (hard error when the delete fails), on `Fail`
delete temp best-effort and return the underlying error. -/
def irdGo (now : Nat) (renameCommitOk : Bool) (destination temp : String) :
    List (Attempt × Bool) → Fs → Option (Except Error Unit × Fs)
  | [], _ => none
  | (a, removeOk) :: rest, fs =>
    match runDownloadChunks now fs temp a with
    | (Except.ok _, fs1) =>
      if renameCommitOk then
        match fsGet fs1 temp with
        | some fd =>
          some (Except.ok (), fsSet (fsRemove fs1 temp) destination fd)
        | none => none
      else some (Except.error "Unable to move temporary file", fs1)
    | (Except.error (RetryableError.retry _), fs1) =>
      if removeOk then irdGo now renameCommitOk destination temp rest (fsRemove fs1 temp)
      else some (Except.error "Unable to delete temporary file", fs1)
    | (Except.error (RetryableError.fail e), fs1) =>
      some (Except.error e, if removeOk then fsRemove fs1 temp else fs1)

/-- Oracles for one `do_retryable_download` call (resource.rs:129-172):
the `prepare_path` environment, the `before_download_file` outcome (URL
acquisition), `create_dir_all` success, the mtime files are created with,
the download attempts, commit-rename success and `set_file_mtime` success. -/
structure DownloadEnv where
  prep : PrepEnv
  beforeDownload : Except Error Unit
  createDirOk : Bool
  now : Nat
  attempts : List (Attempt × Bool)
  renameCommitOk : Bool
  setMtimeOk : Bool

/-- The embedding of `do_retryable_download` (resource.rs:129-172):
prepare the path, acquire the URL, create the parent directory, run the
retrying download, then stamp the destination's mtime with the server's
`last_updated`. Returns the `OverwriteResult` and the final file system;
errors carry the file system at the point of failure. -/
def doRetryableDownload (env : DownloadEnv) (fs : Fs) (destination temp : String)
    (mode : OverwriteMode) (lastUpdated : Nat) :
    Option (Except Error OverwriteResult × Fs) :=
  match preparePath env.prep fs destination mode lastUpdated with
  | none => none
  | some (Except.error e) => some (Except.error e, fs)
  | some (Except.ok (shouldDownload, result, fs1)) =>
    if shouldDownload then
      match env.beforeDownload with
      | Except.error e => some (Except.error e, fs1)
      | Except.ok _ =>
        if env.createDirOk then
          match irdGo env.now env.renameCommitOk destination temp env.attempts fs1 with
          | none => none
          | some (Except.error e, fs2) => some (Except.error e, fs2)
          | some (Except.ok _, fs2) =>
            if env.setMtimeOk then
              some (Except.ok result, fsSetMtime fs2 destination lastUpdated)
            else some (Except.error "Unable to set last modified time", fs2)
        else some (Except.error "Unable to create directory", fs1)
    else some (Except.ok result, fs1)

/-- Concrete download environment in which everything succeeds except the
final `set_file_mtime` stamping: one fully successful download attempt of
the bytes `[1, 2, 3]`, then the mtime call fails. -/
def mtimeFailEnv : DownloadEnv :=
  { prep :=
      { mdFailure := none
        mtimeUnsupported := false
        dateStr := fun _ => "2024-03-01"
        renameOk := true }
    beforeDownload := Except.ok ()
    createDirOk := true
    now := 7
    attempts := [(Attempt.success [1, 2, 3], true)]
    renameCommitOk := true
    setMtimeOk := false }

/-- HTTP response as the retry layer sees it: only the status code is
carried; `infinite_retry_http` itself never inspects it. -/
structure HttpResponse where
  status : Nat
deriving DecidableEq, Repr

/-- One iteration of the send loop of `infinite_retry_http`
(lib.rs:149-170): whether `edit_request(request_builder).build()`
succeeds, and the transport outcome of `client.execute` (`none` models a
send failure). -/
structure HttpAttempt where
  buildOk : Bool
  sendResult : Option HttpResponse
deriving DecidableEq, Repr

/-- The send loop of `infinite_retry_http` (lib.rs:149-170), driven by the
per-iteration oracle outcomes: a build failure is the permanent error
"Failed to build request"; a send failure is logged and retried
immediately; a send success breaks with the response, whatever its status.
Exhausting the outcome list yields `none`, the model of looping forever. -/
def infiniteRetryHttpLoop :
    List HttpAttempt → Option (Except Error HttpResponse)
  | [] => none
  | a :: rest =>
    if a.buildOk then
      match a.sendResult with
      | some res => some (Except.ok res)
      | none => infiniteRetryHttpLoop rest
    else some (Except.error "Failed to build request")

/-- The embedding of `infinite_retry_http` (lib.rs:131-172): when a form
is present it is URL-encoded once, before the loop (`serOk` is the
serde_urlencoded outcome); a serialization failure is the permanent error
"Failed to serialise HTTP form" and nothing is ever sent. -/
def infiniteRetryHttp (form : Option (List (String × String)))
    (serOk : Bool) (attempts : List HttpAttempt) :
    Option (Except Error HttpResponse) :=
  match form with
  | some _ =>
    if serOk then infiniteRetryHttpLoop attempts
    else some (Except.error "Failed to serialise HTTP form")
  | none => infiniteRetryHttpLoop attempts

/-- Zoom cloudrecord instance (conferencing.rs `CloudRecordInstance`). -/
structure CloudRecordInstance where
  shareUrl : String
  password : String
deriving DecidableEq, Repr

/-- Zoom cloudrecord response body (conferencing.rs `CloudRecord`):
the nested status code and the optional recording instances. -/
structure CloudRecord where
  code : Option Nat
  recordInstances : Option (List CloudRecordInstance)
deriving DecidableEq, Repr

/-- The polling loop of `load_cloud_record` (conferencing.rs:123-135),
driven by the response bodies the server returns in order: a body with
`code = 400` is always retried; one with `code = 404` is retried while
`num_404_tries` is below 5 (incrementing it); anything else is accepted.
Returns how many fetches were made and the accepted body; `none` models
the loop outrunning the supplied responses. -/
def loadCloudRecordLoop : List CloudRecord → Nat → Option (Nat × CloudRecord)
  | [], _ => none
  | cr :: rest, num404 =>
    if cr.code ≠ some 400 ∧ (cr.code ≠ some 404 ∨ num404 ≥ 5) then
      some (1, cr)
    else
      match loadCloudRecordLoop rest
          (if cr.code = some 404 then num404 + 1 else num404) with
      | some (k, r) => some (k + 1, r)
      | none => none

/-- The numbering suffix of conferencing.rs `append_number`. -/
def appendNumber (text : String) (number : Nat) : String :=
  text ++ " (" ++ toString number ++ ")"

/-- Mapping of the accepted cloudrecord body to the recordings' file names
(conferencing.rs:141-171), for an already-sanitised conference name:
missing `record_instances` means no recording; a single instance uses the
plain name; several instances get numbered suffixes. Every name receives
the mp4 extension via `Path::with_extension`. -/
def recordingPaths (conferenceName : String) (cr : CloudRecord) :
    List String :=
  match cr.recordInstances with
  | none => []
  | some ris =>
    match ris with
    | [] => []
    | [_] => [withExtension conferenceName "mp4"]
    | _ => (List.range ris.length).map
        (fun i => withExtension (appendNumber conferenceName (i + 1)) "mp4")

/-- A cloudrecord body with `code = 404` and no instances. -/
def cr404 : CloudRecord := { code := some 404, recordInstances := none }

/-- Resource record as the uniquifier sees it (the `Resource` trait of
resource.rs): the stable id, the destination path (a file name) and the
last-updated timestamp. -/
structure Res where
  id : String
  path : String
  lastUpdated : Nat
deriving DecidableEq, Repr

/-- The comparator of `sort_and_make_all_paths_unique` (resource.rs:79-83),
`r1.path().cmp(r2.path()).then_with(r1.last_updated().cmp(..).reverse())`,
as a non-strict order: path ascending, ties last-updated descending.
Paths compare as their byte sequences, the `List Char` order here. -/
def resLe (a b : Res) : Prop :=
  a.path.toList < b.path.toList ∨
    (a.path = b.path ∧ b.lastUpdated ≤ a.lastUpdated)

instance : DecidableRel resLe := fun a b => by
  unfold resLe
  infer_instance

/-- Distinct sort keys: two resources that differ in path or timestamp.
The comparator of resource.rs:79-83 never ties on a list that is pairwise
in this relation, so every sort — also Rust's unstable one — produces the
same result there. -/
def resKeyNe (a b : Res) : Prop :=
  a.path ≠ b.path ∨ a.lastUpdated ≠ b.lastUpdated

instance : DecidableRel resKeyNe := fun a b => by
  unfold resKeyNe
  infer_instance

instance : IsTotal Res resLe where
  total a b := by
    rcases lt_trichotomy a.path.toList b.path.toList with h | h | h
    · exact Or.inl (Or.inl h)
    · have hp : a.path = b.path := String.ext h
      rcases le_total b.lastUpdated a.lastUpdated with hl | hl
      · exact Or.inl (Or.inr ⟨hp, hl⟩)
      · exact Or.inr (Or.inr ⟨hp.symm, hl⟩)
    · exact Or.inr (Or.inl h)

instance : IsTrans Res resLe where
  trans a b c hab hbc := by
    rcases hab with hab | ⟨hab, hab2⟩
    · rcases hbc with hbc | ⟨hbc, _⟩
      · exact Or.inl (lt_trans hab hbc)
      · exact Or.inl (by rwa [hbc] at hab)
    · rcases hbc with hbc | ⟨hbc, hbc2⟩
      · exact Or.inl (by rwa [hab])
      · exact Or.inr ⟨hab.trans hbc, le_trans hbc2 hab2⟩

/-- The replacement file name built in resource.rs:87-96: the std file
stem followed by an underscore (nothing when the stem is absent), then the
resource id, then a dot and the std extension when one is present. -/
def uniquifyName (r : Res) : String :=
  ((match rustFileStem r.path with
    | some s => s ++ "_"
    | none => "") ++ r.id) ++
    (match rustExtension r.path with
      | some e => "." ++ e
      | none => "")

/-- The fold of resource.rs:85-102: walk the sorted slice with a cursor
holding the previous resource's original path, renaming every resource
whose path equals the cursor (the cursor is left unchanged then). -/
def uniquifyFold : String → List Res → List Res
  | _, [] => []
  | cursor, r :: rest =>
    if r.path = cursor then
      Res.mk r.id (uniquifyName r) r.lastUpdated :: uniquifyFold cursor rest
    else r :: uniquifyFold r.path rest

/-- The embedding of `sort_and_make_all_paths_unique` (resource.rs:78-103):
sort by (path ascending, last-updated descending), then rename every
resource whose path equals its predecessor's original path. The unstable
sort is modelled by `insertionSort` with the source's comparator; the two
agree on every input whose (path, last-updated) keys are pairwise
distinct, which the theorems below assume or exhibit. -/
def sortAndMakeAllPathsUnique (rs : List Res) : List Res :=
  uniquifyFold "" (List.insertionSort resLe rs)

/-- Module row as the term filter sees it (module.rs `Module`): the
module code and the academic term, strings compared in byte order. -/
structure Module where
  code : String
  term : String
deriving DecidableEq, Repr

/-- Filter modes of `Api::modules` (lib.rs:283-293): `Equal` when a term
was supplied, `GreaterThan` the current term otherwise. -/
inductive FilterMode
  | greaterThan (t : String)
  | equal (t : String)
deriving DecidableEq, Repr

/-- The filter mode `Api::modules` chooses (lib.rs:287-293). -/
def modulesFilterMode (term : Option String) (currentTerm : String) :
    FilterMode :=
  match term with
  | some t => FilterMode.equal t
  | none => FilterMode.greaterThan currentTerm

/-- The row filter of lib.rs:301-304: `Equal` keeps rows whose term is the
specified one, `GreaterThan` keeps rows whose term is at least the
threshold (Rust string `>=` is byte order). -/
def moduleKept : FilterMode → Module → Bool
  | FilterMode.equal t, m => m.term = t
  | FilterMode.greaterThan t, m => decide (t.toList ≤ m.term.toList)

/-- The sort comparator of lib.rs:306-308 as a non-strict order: module
code ascending, then term descending. -/
def moduleLe (a b : Module) : Prop :=
  a.code.toList < b.code.toList ∨
    (a.code = b.code ∧ b.term.toList ≤ a.term.toList)

instance : DecidableRel moduleLe := fun a b => by
  unfold moduleLe
  infer_instance

instance : IsTotal Module moduleLe where
  total a b := by
    rcases lt_trichotomy a.code.toList b.code.toList with h | h | h
    · exact Or.inl (Or.inl h)
    · have hp : a.code = b.code := String.ext h
      rcases le_total b.term.toList a.term.toList with hl | hl
      · exact Or.inl (Or.inr ⟨hp, hl⟩)
      · exact Or.inr (Or.inr ⟨hp.symm, hl⟩)
    · exact Or.inr (Or.inl h)

instance : IsTrans Module moduleLe where
  trans a b c hab hbc := by
    rcases hab with hab | ⟨hab, hab2⟩
    · rcases hbc with hbc | ⟨hbc, _⟩
      · exact Or.inl (lt_trans hab hbc)
      · exact Or.inl (by rwa [hbc] at hab)
    · rcases hbc with hbc | ⟨hbc, hbc2⟩
      · exact Or.inl (by rwa [hab])
      · exact Or.inr ⟨hab.trans hbc, le_trans hbc2 hab2⟩

/-- The consecutive dedup of lib.rs:309-314: `Vec::dedup_by` keeps the
first element of every run, comparing each candidate (`other`) against the
last kept element (`latest`) by module code, warning and dropping the
candidate when they match. -/
def dedupModulesGo : Module → List Module → List Module
  | _, [] => []
  | latest, other :: rest =>
    if other.code = latest.code then dedupModulesGo latest rest
    else other :: dedupModulesGo other rest

/-- Entry point of the dedup of lib.rs:309-314. -/
def dedupModules : List Module → List Module
  | [] => []
  | m :: ms => m :: dedupModulesGo m ms

/-- The embedding of `Api::modules` (lib.rs:282-319) applied to the module
rows the server returned: filter by the chosen mode, sort by (code
ascending, term descending), deduplicate equal codes keeping the first —
latest-term — row of each run. -/
def modulesResult (term : Option String) (currentTerm : String)
    (data : List Module) : List Module :=
  dedupModules (List.insertionSort moduleLe
    (data.filter (moduleKept (modulesFilterMode term currentTerm))))

/-- The surrounding API-data check of lib.rs:299-318: a missing `data`
field is the type-mismatch error. -/
def modulesApi (term : Option String) (currentTerm : String)
    (data : Option (List Module)) : Except Error (List Module) :=
  match data with
  | some ms => Except.ok (modulesResult term currentTerm ms)
  | none => Except.error "Invalid API response from server: type mismatch"

/-- Cookie-holding HTTP client, as the session sees it: reqwest internals
are opaque and only the cookie jar is observable state (lib.rs:109-123
builds it with `cookie_store(true)`). -/
structure Client where
  cookies : List (String × String)
deriving DecidableEq, Repr

/-- The `Api` struct of lib.rs:190-195 — the spec's "Session": its fields
are exactly `jwt`, `client` and `ffmpeg_path`. -/
structure Api where
  jwt : String
  client : Client
  ffmpegPath : String
deriving DecidableEq, Repr

/-- The field names of the `Api` struct of lib.rs:190-195, in declaration
order, spelled as the source spells them. -/
def apiFieldNames : List String := ["jwt", "client", "ffmpeg_path"]

/-- Oracles for the three SAML exchanges of `login_zoom` (lib.rs:364-369
calling lib.rs:380-468): the signin-page scrape outcome (idp url, SAML
request), the IdP scrape outcome (sso url, SAML response), whether the
final response lands on the Zoom profile URL, and the cookies those
responses deposit in the jar. -/
structure ZoomSsoWorld where
  signinResult : Except Error (String × String)
  idpResult : Except Error (String × String)
  ssoLandsOnProfile : Bool
  newCookies : List (String × String)

/-- The embedding of `Api::login_zoom` (lib.rs:364-369): three HTTP
exchanges through `&self.client`. No field of `Api` is assigned anywhere
in it; the only state change is inside the client's cookie jar, which the
responses extend (folded here into one update). -/
def loginZoom (w : ZoomSsoWorld) (a : Api) : Except Error Unit × Api :=
  (match w.signinResult with
    | Except.error e => Except.error e
    | Except.ok _ =>
      match w.idpResult with
      | Except.error e => Except.error e
      | Except.ok _ =>
        if w.ssoLandsOnProfile then Except.ok ()
        else Except.error "Zoom SSO failed",
    { a with client := Client.mk (a.client.cookies ++ w.newCookies) })

/-- The embedding of `Api::with_ffmpeg` (lib.rs:371-377): consume the
session and return one with only the ffmpeg path replaced. -/
def withFfmpeg (a : Api) (p : String) : Api :=
  Api.mk a.jwt a.client p

/-- One Panopto sub-stream spec (streamer.rs `StreamSpec`). The offset is
an `f64` in the source, consumed only through `to_string` when muxing; it
is carried here as that rendered string. -/
structure StreamSpec where
  streamUrlPath : String
  offsetSeconds : String
deriving DecidableEq, Repr

/-- Command plan of an ffmpeg-driven download: the per-stream intermediate
temp files created, and the argument lists (after the program name and in
order) of the ffmpeg invocations made. -/
structure FfmpegPlan where
  tempStreamFiles : List String
  invocations : List (List String)
deriving DecidableEq, Repr

/-- Argument list built by `stream_impl` (streamer.rs:120-141): `-y`, the
caller-appended input arguments, then `-c copy` and the temp destination. -/
def streamImplArgs (inputArgs : List String) (tempDestination : String) :
    List String :=
  "-y" :: inputArgs ++ ["-c", "copy", tempDestination]

/-- The plan of `stream_video` (streamer.rs:10-21): a single invocation
with `-i <url>`, streaming straight to the temp destination. -/
def streamVideoPlan (streamUrlPath tempDestination : String) : FfmpegPlan :=
  { tempStreamFiles := []
    invocations := [streamImplArgs ["-i", streamUrlPath] tempDestination] }

/-- Temp file name of one sub-stream (streamer.rs:102-118):
`~!<index>~!<basename>` next to the destination. -/
def makeTempStreamFileName (name : String) (index : Nat) : String :=
  "~!" ++ toString index ++ "~!" ++ name

/-- The plan of `stream_and_mux_videos` (streamer.rs:32-100) on the path
where every sub-download succeeds: with a single stream it delegates to
`stream_video` and the offset is ignored; with several it streams each to
its own temp file, then muxes them with `-itsoffset <t> -i <file>` pairs
followed by `-map <i>` arguments. `none` models the panic of the
`assert` on an empty stream list. -/
def streamAndMuxVideosPlan (streams : List StreamSpec)
    (tempDestination : String) : Option FfmpegPlan :=
  match streams with
  | [] => none
  | [s] => some (streamVideoPlan s.streamUrlPath tempDestination)
  | _ =>
    some
      { tempStreamFiles :=
          (List.range streams.length).map
            (makeTempStreamFileName tempDestination)
        invocations :=
          (streams.zip ((List.range streams.length).map
              (makeTempStreamFileName tempDestination))).map
            (fun sd => streamImplArgs ["-i", sd.1.streamUrlPath] sd.2) ++
          [streamImplArgs
            (((streams.zip ((List.range streams.length).map
                  (makeTempStreamFileName tempDestination))).map
                (fun sd => ["-itsoffset", sd.1.offsetSeconds, "-i", sd.2])).flatten ++
              ((List.range streams.length).map
                (fun i => ["-map", toString i])).flatten)
            tempDestination] }

/-
Theorems. Small laws of the file-system model first, then the claim
theorems in claim order.
-/

theorem fsGet_fsRemove (fs : Fs) (p q : String) :
    fsGet (fsRemove fs p) q = if p = q then none else fsGet fs q := by
  induction fs with
  | nil => simp [fsRemove, fsGet]
  | cons e rest ih =>
    by_cases hep : e.1 = p
    · by_cases hpq : p = q <;>
        simp_all [fsRemove, fsGet, List.filter]
    · by_cases heq : e.1 = q
      · by_cases hpq : p = q <;>
          simp_all [fsRemove, fsGet, List.filter]
      · by_cases hpq : p = q <;>
          simp_all [fsRemove, fsGet, List.filter]

theorem fsGet_fsSet (fs : Fs) (p q : String) (d : FileData) :
    fsGet (fsSet fs p d) q = if p = q then some d else fsGet fs q := by
  by_cases hpq : p = q <;> simp [fsSet, fsGet, hpq, fsGet_fsRemove]

theorem runDownloadChunks_dest (now : Nat) (fs : Fs) (temp dest : String)
    (a : Attempt) (hne : dest ≠ temp) :
    fsGet (runDownloadChunks now fs temp a).2 dest = fsGet fs dest := by
  cases a <;> simp [runDownloadChunks, fsGet_fsSet, Ne.symm hne]

theorem findFreeName_free (fs : Fs) (st : String) (ext : Option String)
    (fuel i : Nat) (c : String)
    (h : findFreeName fs st ext fuel i = some c) :
    fsGet fs c = none := by
  induction fuel generalizing i with
  | zero => simp [findFreeName] at h
  | succ fuel ih =>
    rw [findFreeName] at h
    split at h
    · cases h
      simp_all [Option.isNone_iff_eq_none]
    · exact ih _ h

theorem preparePath_ok_dest (env : PrepEnv) (fs : Fs) (dest : String)
    (mode : OverwriteMode) (lu : Nat) (sd : Bool) (res : OverwriteResult)
    (fs1 : Fs)
    (h : preparePath env fs dest mode lu = some (Except.ok (sd, res, fs1))) :
    fs1 = fs ∨ fsGet fs1 dest = none := by
  rw [preparePath] at h
  split at h
  · simp at h
  · simp at h
  · split at h
    · left
      simp only [Option.some.injEq, Except.ok.injEq, Prod.mk.injEq] at h
      exact h.2.2.symm
    · rename_i fd hget
      split at h
      · simp at h
      · split at h
        · left
          simp only [Option.some.injEq, Except.ok.injEq, Prod.mk.injEq] at h
          exact h.2.2.symm
        · split at h
          · left
            simp only [Option.some.injEq, Except.ok.injEq, Prod.mk.injEq] at h
            exact h.2.2.symm
          · left
            simp only [Option.some.injEq, Except.ok.injEq, Prod.mk.injEq] at h
            exact h.2.2.symm
          · split at h
            · simp at h
            · split at h
              · simp at h
              · rename_i renamedPath hfree
                split at h
                · simp only [Option.some.injEq, Except.ok.injEq,
                    Prod.mk.injEq] at h
                  right
                  rw [← h.2.2, fsGet_fsSet]
                  have hrn : renamedPath ≠ dest := by
                    intro hrd
                    have hfree2 := findFreeName_free fs _ _ _ _ _ hfree
                    rw [hrd, hget] at hfree2
                    cases hfree2
                  simp [hrn, fsGet_fsRemove]
                · simp at h

theorem irdGo_error_dest (now : Nat) (rok : Bool) (dest temp : String)
    (l : List (Attempt × Bool)) (fs fs' : Fs) (e : Error)
    (hne : dest ≠ temp)
    (h : irdGo now rok dest temp l fs = some (Except.error e, fs')) :
    fsGet fs' dest = fsGet fs dest := by
  induction l generalizing fs with
  | nil => simp [irdGo] at h
  | cons ab rest ih =>
    obtain ⟨a, removeOk⟩ := ab
    cases a with
    | createFail =>
      rw [irdGo] at h
      simp only [runDownloadChunks] at h
      cases h
      cases removeOk <;> simp [fsGet_fsRemove, Ne.symm hne]
    | sendFail =>
      rw [irdGo] at h
      simp only [runDownloadChunks] at h
      cases removeOk with
      | true =>
        simp only [if_pos rfl] at h
        rw [ih _ h, fsGet_fsRemove, fsGet_fsSet]
        simp [Ne.symm hne]
      | false =>
        simp only [Bool.false_eq_true, if_neg] at h
        cases h
        rw [fsGet_fsSet]
        simp [Ne.symm hne]
    | streamRetry w =>
      rw [irdGo] at h
      simp only [runDownloadChunks] at h
      cases removeOk with
      | true =>
        simp only [if_pos rfl] at h
        rw [ih _ h, fsGet_fsRemove, fsGet_fsSet]
        simp [Ne.symm hne]
      | false =>
        simp only [Bool.false_eq_true, if_neg] at h
        cases h
        rw [fsGet_fsSet]
        simp [Ne.symm hne]
    | writeFail w =>
      rw [irdGo] at h
      simp only [runDownloadChunks] at h
      cases h
      cases removeOk <;>
        simp [fsGet_fsRemove, fsGet_fsSet, Ne.symm hne]
    | success b =>
      rw [irdGo] at h
      simp only [runDownloadChunks] at h
      cases rok with
      | true =>
        simp only [if_pos rfl, fsGet_fsSet, if_pos rfl] at h
        cases h
      | false =>
        simp only [Bool.false_eq_true, if_neg] at h
        cases h
        rw [fsGet_fsSet]
        simp [Ne.symm hne]

theorem irdGo_ok_dest (now : Nat) (rok : Bool) (dest temp : String)
    (l : List (Attempt × Bool)) (fs fs' : Fs) (u : Unit)
    (_hne : dest ≠ temp)
    (h : irdGo now rok dest temp l fs = some (Except.ok u, fs')) :
    ∃ b, Attempt.success b ∈ l.map Prod.fst ∧
      fsGet fs' dest = some (FileData.mk b now) := by
  induction l generalizing fs with
  | nil => simp [irdGo] at h
  | cons ab rest ih =>
    obtain ⟨a, removeOk⟩ := ab
    cases a with
    | createFail =>
      rw [irdGo] at h
      simp only [runDownloadChunks] at h
      cases h
    | sendFail =>
      rw [irdGo] at h
      simp only [runDownloadChunks] at h
      cases removeOk with
      | true =>
        simp only [if_pos rfl] at h
        obtain ⟨b, hmem, hget⟩ := ih _ h
        exact ⟨b, by simp [hmem], hget⟩
      | false =>
        simp only [Bool.false_eq_true, if_neg] at h
        cases h
    | streamRetry w =>
      rw [irdGo] at h
      simp only [runDownloadChunks] at h
      cases removeOk with
      | true =>
        simp only [if_pos rfl] at h
        obtain ⟨b, hmem, hget⟩ := ih _ h
        exact ⟨b, by simp [hmem], hget⟩
      | false =>
        simp only [Bool.false_eq_true, if_neg] at h
        cases h
    | writeFail w =>
      rw [irdGo] at h
      simp only [runDownloadChunks] at h
      cases h
    | success b =>
      rw [irdGo] at h
      simp only [runDownloadChunks] at h
      cases rok with
      | true =>
        simp only [if_pos rfl, fsGet_fsSet, if_pos rfl] at h
        cases h
        refine ⟨b, by simp, ?_⟩
        rw [fsGet_fsSet]
        simp
      | false =>
        simp only [Bool.false_eq_true, if_neg] at h
        cases h

/-- Claim C1, counterexample. The claim states that whenever `download`
returns `Err`, the destination either does not exist or holds exactly the
bytes and mtime it had before the call. Concrete refutation: the download
itself fully succeeds and is committed to `dest` by the atomic rename, but
the subsequent `set_file_mtime` call fails (resource.rs:165-169), so
`do_retryable_download` returns `Err "Unable to set last modified time"`
while `dest` — absent before the call — now holds the downloaded bytes. -/
theorem C1_atomicity_counterexample :
    doRetryableDownload mtimeFailEnv [] "a" "~!a" OverwriteMode.skip 10 =
      some (Except.error "Unable to set last modified time",
        [("a", FileData.mk [1, 2, 3] 7)]) ∧
    ¬ (fsGet [("a", FileData.mk [1, 2, 3] 7)] "a" = fsGet ([] : Fs) "a" ∨
        fsGet [("a", FileData.mk [1, 2, 3] 7)] "a" = none) := by
  decide

/-- Claim C1, amended. Whenever `do_retryable_download` (the composition
with `infinite_retry_download` and `download_chunks`) returns `Err`, the
destination is left untouched — it does not exist, or holds exactly the
bytes and mtime it had before the call — EXCEPT when the error is the
final mtime stamping failure "Unable to set last modified time", which
occurs after the commit: then the destination holds exactly the bytes of a
fully successful download attempt. Streamed bytes are only ever written to
the temp destination and reach `dest` solely through the atomic rename. -/
theorem C1_atomicity_amended (env : DownloadEnv) (fs : Fs)
    (dest temp : String) (mode : OverwriteMode) (lu : Nat) (e : Error)
    (fs' : Fs) (hne : dest ≠ temp)
    (h : doRetryableDownload env fs dest temp mode lu =
      some (Except.error e, fs')) :
    fsGet fs' dest = fsGet fs dest ∨ fsGet fs' dest = none ∨
      (e = "Unable to set last modified time" ∧
        ∃ b, Attempt.success b ∈ env.attempts.map Prod.fst ∧
          fsGet fs' dest = some (FileData.mk b env.now)) := by
  rw [doRetryableDownload] at h
  split at h
  · cases h
  · simp only [Option.some.injEq, Prod.mk.injEq, Except.error.injEq] at h
    left
    rw [← h.2]
  · rename_i sd res fs1 hp
    have hprep := preparePath_ok_dest env.prep fs dest mode lu sd res fs1 hp
    have hfs1 : fsGet fs1 dest = fsGet fs dest ∨ fsGet fs1 dest = none := by
      rcases hprep with rfl | hnone
      · exact Or.inl rfl
      · exact Or.inr hnone
    cases sd with
    | false => simp at h
    | true =>
      rw [if_pos rfl] at h
      split at h
      · simp only [Option.some.injEq, Prod.mk.injEq, Except.error.injEq] at h
        rcases hfs1 with heq | hnone
        · left; rw [← h.2]; exact heq
        · right; left; rw [← h.2]; exact hnone
      · split at h
        · split at h
          · cases h
          · rename_i e2 fs2 hird
            simp only [Option.some.injEq, Prod.mk.injEq,
              Except.error.injEq] at h
            have hd2 := irdGo_error_dest env.now env.renameCommitOk dest
              temp env.attempts fs1 fs2 e2 hne hird
            rcases hfs1 with heq | hnone
            · left; rw [← h.2, hd2]; exact heq
            · right; left; rw [← h.2, hd2]; exact hnone
          · rename_i u2 fs2 hird
            split at h
            · simp at h
            · simp only [Option.some.injEq, Prod.mk.injEq,
                Except.error.injEq] at h
              right; right
              refine ⟨h.1.symm, ?_⟩
              obtain ⟨b, hmem, hget⟩ := irdGo_ok_dest env.now
                env.renameCommitOk dest temp env.attempts fs1 fs2 u2
                hne hird
              exact ⟨b, hmem, by rw [← h.2]; exact hget⟩
        · simp only [Option.some.injEq, Prod.mk.injEq, Except.error.injEq] at h
          rcases hfs1 with heq | hnone
          · left; rw [← h.2]; exact heq
          · right; left; rw [← h.2]; exact hnone

/-- Claim C1, witness for the amended theorem at the concrete refuting
input: the mtime stamping fails after a successful commit and the third
disjunct holds. -/
theorem C1_atomicity_witness :
    fsGet [("a", FileData.mk [1, 2, 3] 7)] "a" = fsGet ([] : Fs) "a" ∨
      fsGet [("a", FileData.mk [1, 2, 3] 7)] "a" = none ∨
      ("Unable to set last modified time" = "Unable to set last modified time" ∧
        ∃ b, Attempt.success b ∈ mtimeFailEnv.attempts.map Prod.fst ∧
          fsGet [("a", FileData.mk [1, 2, 3] 7)] "a" =
            some (FileData.mk b mtimeFailEnv.now)) :=
  C1_atomicity_amended mtimeFailEnv [] "a" "~!a" OverwriteMode.skip 10
    "Unable to set last modified time" [("a", FileData.mk [1, 2, 3] 7)]
    (by decide) (by decide)

/-- Claim C3. For every resource, every overwrite mode and every existing
destination file whose mtime is at least the resource's `last_updated`
(with file metadata readable and mtimes supported), `download` returns
`Ok(AlreadyHave)` and the file system — in particular the destination — is
completely unchanged (resource.rs:222-223 with `should_download = false`
in resource.rs:145-171). -/
theorem C3_already_have_skips (env : DownloadEnv) (fs : Fs)
    (dest temp : String) (mode : OverwriteMode) (lu : Nat) (fd : FileData)
    (hmd : env.prep.mdFailure = none)
    (hms : env.prep.mtimeUnsupported = false)
    (hget : fsGet fs dest = some fd)
    (hle : lu ≤ fd.mtime) :
    doRetryableDownload env fs dest temp mode lu =
      some (Except.ok OverwriteResult.alreadyHave, fs) := by
  rw [doRetryableDownload, preparePath, hmd, hget, hms]
  simp [hle]

/-- Claim C3, witness: a destination whose mtime 50 is at least the
server's `last_updated` 10 is reported as already had, untouched, in every
mode (here `Rename`). -/
theorem C3_already_have_witness :
    doRetryableDownload mtimeFailEnv [("a", FileData.mk [9] 50)] "a" "~!a"
      OverwriteMode.rename 10 =
      some (Except.ok OverwriteResult.alreadyHave,
        [("a", FileData.mk [9] 50)]) :=
  C3_already_have_skips mtimeFailEnv [("a", FileData.mk [9] 50)] "a" "~!a"
    OverwriteMode.rename 10 (FileData.mk [9] 50) rfl rfl (by decide)
    (by decide)

theorem infiniteRetryHttpLoop_skips (n : Nat) (l : List HttpAttempt) :
    infiniteRetryHttpLoop (List.replicate n (HttpAttempt.mk true none) ++ l) =
      infiniteRetryHttpLoop l := by
  induction n with
  | zero => rfl
  | succ n ih => simp [List.replicate, infiniteRetryHttpLoop, ih]

theorem infiniteRetryHttpLoop_error (l : List HttpAttempt) (e : Error)
    (h : infiniteRetryHttpLoop l = some (Except.error e)) :
    e = "Failed to build request" := by
  induction l with
  | nil => simp [infiniteRetryHttpLoop] at h
  | cons a rest ih =>
    rw [infiniteRetryHttpLoop] at h
    split at h
    · match hs : a.sendResult with
      | some res => rw [hs] at h; simp at h
      | none => rw [hs] at h; exact ih h
    · simp only [Option.some.injEq, Except.error.injEq] at h
      exact h.symm

/-- Claim C4. For every request and every number `n` of consecutive
transport-level send failures followed by a successful send,
`infinite_retry_http` returns `Ok` with exactly that one successful
response, regardless of its HTTP status; the form, when present, is
serialized once before the retry loop, and the only `Err` returns — both
made without sending — are the permanent form serialization failure and
the permanent request build failure. -/
theorem C4_http_retry (n : Nat) (r : HttpResponse)
    (rest atts : List HttpAttempt) (form : Option (List (String × String)))
    (serOk : Bool) (f : List (String × String)) :
    ((form = none ∨ serOk = true) →
      infiniteRetryHttp form serOk
        (List.replicate n (HttpAttempt.mk true none) ++
          HttpAttempt.mk true (some r) :: rest) = some (Except.ok r)) ∧
    infiniteRetryHttp (some f) false atts =
      some (Except.error "Failed to serialise HTTP form") ∧
    ((form = none ∨ serOk = true) →
      infiniteRetryHttp form serOk (HttpAttempt.mk false none :: atts) =
        some (Except.error "Failed to build request")) ∧
    (∀ e, infiniteRetryHttp form serOk atts = some (Except.error e) →
      e = "Failed to serialise HTTP form" ∨ e = "Failed to build request") := by
  have hloop : infiniteRetryHttpLoop
      (List.replicate n (HttpAttempt.mk true none) ++
        HttpAttempt.mk true (some r) :: rest) = some (Except.ok r) := by
    rw [infiniteRetryHttpLoop_skips]
    simp [infiniteRetryHttpLoop]
  refine ⟨?_, ?_, ?_, ?_⟩
  · intro hser
    rcases form with _ | f2
    · exact hloop
    · rcases hser with hser | hser
      · cases hser
      · subst hser
        exact hloop
  · rfl
  · intro hser
    have hb : infiniteRetryHttpLoop (HttpAttempt.mk false none :: atts) =
        some (Except.error "Failed to build request") := by
      simp [infiniteRetryHttpLoop]
    rcases form with _ | f2
    · exact hb
    · rcases hser with hser | hser
      · cases hser
      · subst hser
        exact hb
  · intro e h
    rcases form with _ | f2
    · exact Or.inr (infiniteRetryHttpLoop_error atts e h)
    · rw [infiniteRetryHttp] at h
      cases serOk with
      | true =>
        rw [if_pos rfl] at h
        exact Or.inr (infiniteRetryHttpLoop_error atts e h)
      | false =>
        rw [if_neg (by simp)] at h
        simp only [Option.some.injEq, Except.error.injEq] at h
        exact Or.inl h.symm

/-- Claim C4, witness for the theorem at a concrete input: three send
failures, then a success with status 400, with no form. -/
theorem C4_http_retry_witness :
    ((none = (none : Option (List (String × String))) ∨ true = true) →
      infiniteRetryHttp none true
        (List.replicate 3 (HttpAttempt.mk true none) ++
          HttpAttempt.mk true (some (HttpResponse.mk 400)) :: []) =
        some (Except.ok (HttpResponse.mk 400))) ∧
    infiniteRetryHttp (some [("a", "b")]) false [] =
      some (Except.error "Failed to serialise HTTP form") ∧
    ((none = (none : Option (List (String × String))) ∨ true = true) →
      infiniteRetryHttp none true (HttpAttempt.mk false none :: []) =
        some (Except.error "Failed to build request")) ∧
    (∀ e, infiniteRetryHttp none true [] = some (Except.error e) →
      e = "Failed to serialise HTTP form" ∨ e = "Failed to build request") :=
  C4_http_retry 3 (HttpResponse.mk 400) [] [] none true [("a", "b")]

theorem loadCloudRecordLoop_400 (l : List CloudRecord) (num404 : Nat)
    (h400 : ∀ cr ∈ l, cr.code = some 400) :
    loadCloudRecordLoop l num404 = none := by
  induction l generalizing num404 with
  | nil => rfl
  | cons cr rest ih =>
    have hcr : cr.code = some 400 := h400 cr (by simp)
    have hrest : ∀ m, loadCloudRecordLoop rest m = none :=
      fun m => ih m (fun c hc => h400 c (List.mem_cons_of_mem _ hc))
    rw [loadCloudRecordLoop]
    simp [hcr, hrest]

/-- Claim C5, counterexample. The claim states that under an unbroken
sequence of `code = 404` responses exactly 5 attempts are made before
`load_cloud_record` gives up. Concretely: after 5 fetches that all
returned 404 the loop has not terminated (it demands a 6th response), and
with 6 such responses it accepts on the 6th fetch — 6 attempts, not 5. -/
theorem C5_retry_budget_counterexample :
    loadCloudRecordLoop (List.replicate 5 cr404) 0 = none ∧
    loadCloudRecordLoop (List.replicate 6 cr404) 0 = some (6, cr404) := by
  decide

/-- Claim C5, amended. A response body with `code = 400` is always retried
— under any unbroken sequence of 400 responses the loop never gives up —
and one with `code = 404` is retried at most 5 times: under an unbroken
sequence of 404 responses exactly 6 fetches are made (the first five each
trigger a retry) before the loop gives up, accepting the sixth 404 body,
whose missing `record_instances` yields no recording. -/
theorem C5_retry_budget_amended (l rest : List CloudRecord) (name : String)
    (h400 : ∀ cr ∈ l, cr.code = some 400) :
    loadCloudRecordLoop l 0 = none ∧
    loadCloudRecordLoop (List.replicate 6 cr404 ++ rest) 0 =
      some (6, cr404) ∧
    recordingPaths name cr404 = [] := by
  refine ⟨loadCloudRecordLoop_400 l 0 h400, ?_, rfl⟩
  simp [List.replicate, loadCloudRecordLoop, cr404]

/-- Claim C5, witness for the amended theorem at a concrete input: one
400 body retried, the six-404 budget, and the empty recording list. -/
theorem C5_retry_budget_witness :
    loadCloudRecordLoop [CloudRecord.mk (some 400) none] 0 = none ∧
    loadCloudRecordLoop (List.replicate 6 cr404 ++ []) 0 =
      some (6, cr404) ∧
    recordingPaths "Lecture" cr404 = [] :=
  C5_retry_budget_amended [CloudRecord.mk (some 400) none] [] "Lecture"
    (by decide)

theorem uniquifyFold_map (cursor : String) (l : List Res) :
    (uniquifyFold cursor l).map (fun r => (r.id, r.lastUpdated)) =
      l.map (fun r => (r.id, r.lastUpdated)) := by
  induction l generalizing cursor with
  | nil => rfl
  | cons x rest ih =>
    rw [uniquifyFold]
    by_cases hxc : x.path = cursor
    · rw [if_pos hxc]
      simp [ih]
    · rw [if_neg hxc]
      simp [ih]

theorem uniquifyFold_keeps (cursor : String) (l : List Res) (r : Res)
    (hs : List.Pairwise resLe l) (hk : List.Pairwise resKeyNe l)
    (hmem : r ∈ l) (hc : r.path ≠ cursor)
    (hmax : ∀ x ∈ l, x.path = r.path → x.lastUpdated ≤ r.lastUpdated) :
    r ∈ uniquifyFold cursor l := by
  induction l generalizing cursor with
  | nil => cases hmem
  | cons x rest ih =>
    rw [List.pairwise_cons] at hs hk
    obtain ⟨hsx, hsrest⟩ := hs
    obtain ⟨hkx, hkrest⟩ := hk
    rcases List.mem_cons.mp hmem with rfl | hmem2
    · rw [uniquifyFold, if_neg hc]
      exact List.mem_cons_self _ _
    · have hxp : x.path ≠ r.path := by
        intro hpe
        have hxlu : x.lastUpdated ≤ r.lastUpdated :=
          hmax x (List.mem_cons_self _ _) hpe
        have hrlu : r.lastUpdated ≤ x.lastUpdated := by
          rcases hsx r hmem2 with hlt | ⟨_, hlu⟩
          · rw [hpe] at hlt
            exact absurd hlt (lt_irrefl _)
          · exact hlu
        rcases hkx r hmem2 with hne | hne
        · exact hne hpe
        · exact hne (le_antisymm hxlu hrlu)
      have hmax2 : ∀ y ∈ rest, y.path = r.path →
          y.lastUpdated ≤ r.lastUpdated :=
        fun y hy hp => hmax y (List.mem_cons_of_mem _ hy) hp
      rw [uniquifyFold]
      by_cases hxc : x.path = cursor
      · rw [if_pos hxc]
        refine List.mem_cons_of_mem _ (ih cursor hsrest hkrest hmem2 ?_ hmax2)
        rw [← hxc]
        exact fun h => hxp h.symm
      · rw [if_neg hxc]
        exact List.mem_cons_of_mem _
          (ih x.path hsrest hkrest hmem2 (fun h => hxp h.symm) hmax2)

/-- Claim C2, evaluation at the failing input. Three resources with
pairwise distinct ids `x`, `y`, `z`: two share the path `a` and the third
already sits at the path `a_y` that the uniquifier fabricates for the
older duplicate. After `sort_and_make_all_paths_unique` two resources
hold the path `a_y`, contradicting both the claim and the function's own
doc comment ("Makes the paths of all the given files unique"). -/
theorem C2_uniqueness_code_bug :
    (sortAndMakeAllPathsUnique
        [Res.mk "z" "a_y" 0, Res.mk "x" "a" 1, Res.mk "y" "a" 0]).map
        Res.path = ["a", "a_y", "a_y"] ∧
    List.Pairwise (fun i j : String => i ≠ j) ["x", "y", "z"] ∧
    ¬ List.Pairwise (fun a b : Res => a.path ≠ b.path)
      (sortAndMakeAllPathsUnique
        [Res.mk "z" "a_y" 0, Res.mk "x" "a" 1, Res.mk "y" "a" 0]) := by
  decide

/-- Claim C6, counterexample. The claim's conjunct "the batch is sorted by
path ascending with path-ties ordered newest first" fails after renaming:
with resources `(A, a, 1)`, `(B, a, 0)`, `(C, aZ, 0)` the older duplicate
`B` is renamed to `a_B`, and since `Z` (0x5A) sorts before `_` (0x5F) the
final batch `[a, a_B, aZ]` is not sorted by path ascending. -/
theorem C6_stability_counterexample :
    sortAndMakeAllPathsUnique
        [Res.mk "A" "a" 1, Res.mk "B" "a" 0, Res.mk "C" "aZ" 0] =
      [Res.mk "A" "a" 1, Res.mk "B" "a_B" 0, Res.mk "C" "aZ" 0] ∧
    ¬ List.Pairwise resLe
      (sortAndMakeAllPathsUnique
        [Res.mk "A" "a" 1, Res.mk "B" "a" 0, Res.mk "C" "aZ" 0]) := by
  decide

/-- Claim C6, amended. For every batch with pairwise distinct sort keys
and non-empty paths: among the resources whose pre-uniquification path is
p, the one with the greatest `last_updated` timestamp keeps its path (only
older duplicates are renamed); and the resulting element order is that of
the batch sorted by (pre-uniquification path ascending, last-updated
descending) — renaming edits paths in place and does not re-sort, so the
final paths themselves need not be ascending. -/
theorem C6_stability_amended (rs : List Res)
    (hkeys : rs.Pairwise resKeyNe)
    (hne : ∀ r ∈ rs, r.path ≠ "") :
    (∀ r ∈ rs,
      (∀ x ∈ rs, x.path = r.path → x.lastUpdated ≤ r.lastUpdated) →
      r ∈ sortAndMakeAllPathsUnique rs) ∧
    (sortAndMakeAllPathsUnique rs).map (fun r => (r.id, r.lastUpdated)) =
      (List.insertionSort resLe rs).map (fun r => (r.id, r.lastUpdated)) ∧
    List.Pairwise resLe (List.insertionSort resLe rs) := by
  have hperm : (List.insertionSort resLe rs).Perm rs :=
    List.perm_insertionSort resLe rs
  have hsorted : List.Pairwise resLe (List.insertionSort resLe rs) :=
    List.sorted_insertionSort resLe rs
  have hkeys2 : (List.insertionSort resLe rs).Pairwise resKeyNe := by
    refine hkeys.perm hperm.symm ?_
    intro x y hxy
    rcases hxy with h | h
    · exact Or.inl (Ne.symm h)
    · exact Or.inr (Ne.symm h)
  refine ⟨?_, uniquifyFold_map "" _, hsorted⟩
  intro r hr hmax
  refine uniquifyFold_keeps "" _ r hsorted hkeys2 ?_ ?_ ?_
  · exact hperm.mem_iff.mpr hr
  · exact hne r hr
  · intro x hx hxp
    exact hmax x (hperm.mem_iff.mp hx) hxp

/-- Claim C6, witness for the amended theorem at a concrete batch: two
resources share the path `a`; the newer one (timestamp 1) keeps it, the
element order is the sorted one, and the ids and timestamps survive. -/
theorem C6_stability_witness :
    (∀ r ∈ [Res.mk "A" "a" 1, Res.mk "B" "a" 0],
      (∀ x ∈ [Res.mk "A" "a" 1, Res.mk "B" "a" 0],
        x.path = r.path → x.lastUpdated ≤ r.lastUpdated) →
      r ∈ sortAndMakeAllPathsUnique [Res.mk "A" "a" 1, Res.mk "B" "a" 0]) ∧
    (sortAndMakeAllPathsUnique [Res.mk "A" "a" 1, Res.mk "B" "a" 0]).map
        (fun r => (r.id, r.lastUpdated)) =
      (List.insertionSort resLe [Res.mk "A" "a" 1, Res.mk "B" "a" 0]).map
        (fun r => (r.id, r.lastUpdated)) ∧
    List.Pairwise resLe
      (List.insertionSort resLe [Res.mk "A" "a" 1, Res.mk "B" "a" 0]) :=
  C6_stability_amended [Res.mk "A" "a" 1, Res.mk "B" "a" 0]
    (by decide) (by decide)

theorem moduleLe_code_le {a b : Module} (h : moduleLe a b) :
    a.code.toList ≤ b.code.toList := by
  rcases h with h | ⟨h, _⟩
  · exact le_of_lt h
  · exact le_of_eq (congrArg String.toList h)

theorem moduleLe_term_ge {a b : Module} (h : moduleLe a b)
    (hc : b.code = a.code) : b.term.toList ≤ a.term.toList := by
  rcases h with h | ⟨_, h2⟩
  · rw [hc] at h
    exact absurd h (lt_irrefl _)
  · exact h2

theorem dedupModulesGo_subset (prev : Module) (l : List Module) :
    ∀ m ∈ dedupModulesGo prev l, m ∈ l := by
  induction l generalizing prev with
  | nil =>
    intro m hm
    cases hm
  | cons y ys ih =>
    intro m hm
    rw [dedupModulesGo] at hm
    by_cases hyc : y.code = prev.code
    · rw [if_pos hyc] at hm
      exact List.mem_cons_of_mem _ (ih prev m hm)
    · rw [if_neg hyc] at hm
      rcases List.mem_cons.mp hm with rfl | hm2
      · exact List.mem_cons_self _ _
      · exact List.mem_cons_of_mem _ (ih y m hm2)

theorem dedupModules_subset (l : List Module) :
    ∀ m ∈ dedupModules l, m ∈ l := by
  cases l with
  | nil =>
    intro m hm
    cases hm
  | cons x ms =>
    intro m hm
    rw [dedupModules] at hm
    rcases List.mem_cons.mp hm with rfl | hm2
    · exact List.mem_cons_self _ _
    · exact List.mem_cons_of_mem _ (dedupModulesGo_subset x ms m hm2)

theorem dedupModulesGo_pairwise (prev : Module) (l : List Module)
    (h : List.Pairwise moduleLe (prev :: l)) :
    List.Pairwise (fun a b : Module => a.code.toList < b.code.toList)
      (prev :: dedupModulesGo prev l) := by
  induction l generalizing prev with
  | nil =>
    rw [dedupModulesGo]
    exact List.pairwise_singleton _ _
  | cons y ys ih =>
    rw [List.pairwise_cons] at h
    obtain ⟨hprev, hy⟩ := h
    rw [dedupModulesGo]
    by_cases hyc : y.code = prev.code
    · rw [if_pos hyc]
      refine ih prev ?_
      rw [List.pairwise_cons]
      exact ⟨fun z hz => hprev z (List.mem_cons_of_mem _ hz),
        (List.pairwise_cons.mp hy).2⟩
    · rw [if_neg hyc]
      have hpy : prev.code.toList < y.code.toList := by
        rcases hprev y (List.mem_cons_self _ _) with hlt | ⟨heq, _⟩
        · exact hlt
        · exact absurd heq.symm hyc
      have hyd := ih y hy
      rw [List.pairwise_cons]
      refine ⟨?_, hyd⟩
      intro z hz
      rcases List.mem_cons.mp hz with rfl | hz2
      · exact hpy
      · exact lt_trans hpy ((List.pairwise_cons.mp hyd).1 z hz2)

theorem dedupModulesGo_max (prev : Module) (l : List Module)
    (h : List.Pairwise moduleLe (prev :: l)) :
    ∀ m ∈ prev :: dedupModulesGo prev l, ∀ m2 ∈ prev :: l,
      m2.code = m.code → m2.term.toList ≤ m.term.toList := by
  induction l generalizing prev with
  | nil =>
    intro m hm m2 hm2 _hcc
    rw [dedupModulesGo] at hm
    have hm' : m = prev := by simpa using hm
    have hm2' : m2 = prev := by simpa using hm2
    subst hm'
    subst hm2'
    exact le_refl _
  | cons y ys ih =>
    rw [List.pairwise_cons] at h
    obtain ⟨hprev, hy⟩ := h
    intro m hm m2 hm2 hcc
    rw [dedupModulesGo] at hm
    by_cases hyc : y.code = prev.code
    · rw [if_pos hyc] at hm
      have hPys : List.Pairwise moduleLe (prev :: ys) := by
        rw [List.pairwise_cons]
        exact ⟨fun z hz => hprev z (List.mem_cons_of_mem _ hz),
          (List.pairwise_cons.mp hy).2⟩
      rcases List.mem_cons.mp hm2 with heq2 | hm2'
      · refine ih prev hPys m hm m2 ?_ hcc
        rw [heq2]
        exact List.mem_cons_self _ _
      · rcases List.mem_cons.mp hm2' with rfl | hm2''
        · rcases List.mem_cons.mp hm with rfl | hmd
          · exact moduleLe_term_ge (hprev m2 (List.mem_cons_self _ _)) hyc
          · exfalso
            have hltc := dedupModulesGo_pairwise prev ys hPys
            have hlt : prev.code.toList < m.code.toList :=
              (List.pairwise_cons.mp hltc).1 m hmd
            have heq : m.code = prev.code := by rw [← hcc, hyc]
            rw [heq] at hlt
            exact absurd hlt (lt_irrefl _)
        · exact ih prev hPys m hm m2 (List.mem_cons_of_mem _ hm2'') hcc
    · rw [if_neg hyc] at hm
      have hpy : prev.code.toList < y.code.toList := by
        rcases hprev y (List.mem_cons_self _ _) with hlt | ⟨heq, _⟩
        · exact hlt
        · exact absurd heq.symm hyc
      rcases List.mem_cons.mp hm with rfl | hmrest
      · rcases List.mem_cons.mp hm2 with rfl | hm2'
        · exact le_refl _
        · rcases List.mem_cons.mp hm2' with rfl | hm2''
          · exact absurd hcc hyc
          · exfalso
            have hym2 := (List.pairwise_cons.mp hy).1 m2 hm2''
            have hlt : m.code.toList < m2.code.toList :=
              lt_of_lt_of_le hpy (moduleLe_code_le hym2)
            rw [congrArg String.toList hcc] at hlt
            exact absurd hlt (lt_irrefl _)
      · rcases List.mem_cons.mp hm2 with rfl | hm2'
        · exfalso
          have hltc := dedupModulesGo_pairwise y ys hy
          have hyLEm : y.code.toList ≤ m.code.toList := by
            rcases List.mem_cons.mp hmrest with rfl | hmd
            · exact le_refl _
            · exact le_of_lt ((List.pairwise_cons.mp hltc).1 m hmd)
          have hlt : m2.code.toList < m.code.toList :=
            lt_of_lt_of_le hpy hyLEm
          rw [congrArg String.toList hcc] at hlt
          exact absurd hlt (lt_irrefl _)
        · exact ih y hy m hmrest m2 hm2' hcc

theorem dedupModules_pairwise (l : List Module)
    (h : List.Pairwise moduleLe l) :
    List.Pairwise (fun a b : Module => a.code.toList < b.code.toList)
      (dedupModules l) := by
  cases l with
  | nil => exact List.Pairwise.nil
  | cons x ms => exact dedupModulesGo_pairwise x ms h

theorem dedupModules_max (l : List Module)
    (h : List.Pairwise moduleLe l) :
    ∀ m ∈ dedupModules l, ∀ m2 ∈ l, m2.code = m.code →
      m2.term.toList ≤ m.term.toList := by
  cases l with
  | nil =>
    intro m hm
    cases hm
  | cons x ms => exact dedupModulesGo_max x ms h

/-- Claim C7. For every server module list: with a supplied term every
returned module carries exactly that term; without one every returned
module's term is at least the current term (byte order, the Rust string
order); the result is pairwise strictly increasing in code — hence sorted
by (code ascending, term descending) with at most one row per code — and
each returned row carries the greatest term among the filtered rows of its
code, i.e. duplicates keep the latest-term row. -/
theorem C7_modules_filter (term : Option String) (cur : String)
    (data : List Module) :
    (∀ m ∈ modulesResult term cur data,
      (∀ t, term = some t → m.term = t) ∧
      (term = none → cur.toList ≤ m.term.toList)) ∧
    List.Pairwise (fun a b : Module => a.code.toList < b.code.toList)
      (modulesResult term cur data) ∧
    (∀ m ∈ modulesResult term cur data, ∀ m2 ∈ data,
      moduleKept (modulesFilterMode term cur) m2 = true →
      m2.code = m.code → m2.term.toList ≤ m.term.toList) := by
  have hsorted := List.sorted_insertionSort moduleLe
    (data.filter (moduleKept (modulesFilterMode term cur)))
  have hperm := List.perm_insertionSort moduleLe
    (data.filter (moduleKept (modulesFilterMode term cur)))
  refine ⟨?_, dedupModules_pairwise _ hsorted, ?_⟩
  · intro m hm
    have hmf : m ∈ data.filter (moduleKept (modulesFilterMode term cur)) :=
      hperm.mem_iff.mp (dedupModules_subset _ m hm)
    have hkept := (List.mem_filter.mp hmf).2
    constructor
    · intro t ht
      subst ht
      simpa [moduleKept, modulesFilterMode] using hkept
    · intro ht
      subst ht
      simpa [moduleKept, modulesFilterMode] using hkept
  · intro m hm m2 hm2 hk hcc
    have hm2s : m2 ∈ List.insertionSort moduleLe
        (data.filter (moduleKept (modulesFilterMode term cur))) :=
      hperm.mem_iff.mpr (List.mem_filter.mpr ⟨hm2, hk⟩)
    exact dedupModules_max _ hsorted m hm m2 hm2s hcc

/-- Claim C8, counterexample. The `Api` struct of lib.rs:190-195 — the
spec's Session — has exactly the fields `jwt`, `client` and `ffmpeg_path`;
the `zoom_authenticated` flag the claim asserts does not exist, so no
successful `login_zoom` can flip it. -/
theorem C8_session_counterexample :
    apiFieldNames = ["jwt", "client", "ffmpeg_path"] ∧
    "zoom_authenticated" ∉ apiFieldNames := by
  decide

/-- Claim C8, amended. The Session state consists of the fields `jwt`,
`client` and `ffmpeg_path` only — there is no `zoom_authenticated` flag.
`login_zoom`, for every outcome, leaves `jwt` and `ffmpeg_path` unchanged
and touches only the cookie jar inside `client`, which is what records the
Zoom session; `with_ffmpeg` consumes the session and replaces only the
ffmpeg path. -/
theorem C8_session_amended (w : ZoomSsoWorld) (a : Api) (p : String) :
    (loginZoom w a).2.jwt = a.jwt ∧
    (loginZoom w a).2.ffmpegPath = a.ffmpegPath ∧
    (withFfmpeg a p).jwt = a.jwt ∧
    (withFfmpeg a p).client = a.client ∧
    "zoom_authenticated" ∉ apiFieldNames :=
  ⟨rfl, rfl, rfl, rfl, by decide⟩

theorem splitAtFirstDot_spec (cs : List Char) :
    ('.' ∈ cs → ∃ st ex, splitAtFirstDot cs = some (st, ex) ∧
      st ++ '.' :: ex = cs ∧ '.' ∉ st) ∧
    ('.' ∉ cs → splitAtFirstDot cs = none) := by
  induction cs with
  | nil => simp [splitAtFirstDot]
  | cons c cs ih =>
    by_cases hc : c = '.'
    · subst hc
      constructor
      · intro _
        exact ⟨[], cs, by rw [splitAtFirstDot, if_pos rfl], rfl, by simp⟩
      · intro hmem
        exact absurd (List.mem_cons_self _ _) hmem
    · constructor
      · intro hmem
        have hmem' : '.' ∈ cs := by
          rcases List.mem_cons.mp hmem with heq | h
          · exact absurd heq.symm hc
          · exact h
        obtain ⟨st, ex, heq, hcat, hnst⟩ := ih.1 hmem'
        refine ⟨c :: st, ex, ?_, by simp [hcat], ?_⟩
        · rw [splitAtFirstDot, if_neg hc, heq]
        · intro hmem2
          rcases List.mem_cons.mp hmem2 with heq2 | h2
          · exact hc heq2.symm
          · exact hnst h2
      · intro hmem
        have hns : '.' ∉ cs := fun h => hmem (List.mem_cons_of_mem _ h)
        rw [splitAtFirstDot, if_neg hc, ih.2 hns]

/-- Claim C9. The stem/extension split used by the Rename overwrite path
(resource.rs:311-349, used in resource.rs:228-259) splits at the FIRST dot
of the file name: for every name containing a dot it yields a dot-free
stem and the remainder after that first dot (so the whole name is
`stem ++ "." ++ extension`); a name without a dot has no extension; and
the name `a.tar.gz` splits into the stem `a` and the extension `tar.gz`. -/
theorem C9_first_dot_split (n : String) :
    ('.' ∈ n.toList →
      ∃ stem ext, splitFileNameProperly (some n) = (some stem, some ext) ∧
        stem.toList ++ '.' :: ext.toList = n.toList ∧
        '.' ∉ stem.toList) ∧
    ('.' ∉ n.toList → splitFileNameProperly (some n) = (some n, none)) ∧
    splitFileNameProperly (some "a.tar.gz") = (some "a", some "tar.gz") := by
  refine ⟨?_, ?_, by decide⟩
  · intro hdot
    obtain ⟨st, ex, heq, hcat, hnst⟩ := (splitAtFirstDot_spec n.toList).1 hdot
    refine ⟨String.mk st, String.mk ex, ?_, hcat, hnst⟩
    rw [splitFileNameProperly, heq]
  · intro hdot
    rw [splitFileNameProperly, (splitAtFirstDot_spec n.toList).2 hdot]

/-- Claim C10. For a stream list of length exactly one,
`stream_and_mux_videos` (streamer.rs:37-40) delegates to `stream_video`
on the stream's URL and ignores `offset_seconds` entirely: the plan equals
`stream_video`'s for every offset — a single ffmpeg invocation
`-y -i <url> -c copy <temp destination>` streaming straight to the temp
destination — with no per-stream intermediate temp files and no
`-itsoffset` or `-map` arguments added. -/
theorem C10_single_stream (s : StreamSpec) (off dest : String) :
    streamAndMuxVideosPlan [s] dest =
      some (streamVideoPlan s.streamUrlPath dest) ∧
    streamAndMuxVideosPlan [StreamSpec.mk s.streamUrlPath off] dest =
      streamAndMuxVideosPlan [s] dest ∧
    (streamVideoPlan s.streamUrlPath dest).tempStreamFiles = [] ∧
    (streamVideoPlan s.streamUrlPath dest).invocations =
      [["-y", "-i", s.streamUrlPath, "-c", "copy", dest]] :=
  ⟨rfl, rfl, rfl, rfl⟩

end Fluminurs
